import Mathlib

/-!
Shallow embedding of the aggregated Schnorr {n,n}-signature implementation
(`src/protocols/aggsig/temp.rs`).

Modelling conventions:
* The elliptic-curve group, the SHA-256 digest and the hash commitment are the
  external capabilities the specification names Curve, Digest and Commitment.
  They are bundled in the `Curve` structure below: abstract `Point` and
  `Scalar` types with the operations the source uses
  (`add_point`/`sub_point` = `ptAdd`/`ptSub`, `scalar_mul` = `smul`,
  `bytes_compressed_to_big_int` = `compress`, `x_coor().unwrap()` = `xCoor`,
  `ECScalar::from` = `ofBigInt`, `to_big_int` = `toBigInt`,
  `HSha256::create_hash` = `hash`,
  `create_commitment_with_user_defined_randomness` = `commitW`).
  The point group is abelian (`ptAdd_comm`) and the scalar field is a
  commutative ring; only the laws actually needed are required
  (`sMul_comm`, `sMul_assoc`).  `xCoor` is total: in the secp256k1 backend
  of the curv library `x_coor()` is `Some` on every representable point, so
  the `unwrap` after it never fires.
* `BigInt` values are modelled as `Int`.  A byte-string message enters the
  source only through `BigInt::from(message)`, so messages are passed as the
  already-converted `Int`.
* Rust panics (indexing out of bounds, `Vec::remove` on an empty vector,
  `Option::unwrap` of `None`) are modelled by returning `none`; a function
  that cannot panic keeps a non-optional result type.
* External randomness (the commitment blinding factors drawn inside
  `create_commitment`) is passed in explicitly as `blinds : Nat → Int`.
* The `println!` statements of `sign_2` are modelled by a `log` field in its
  result: every payload the source prints is recorded as a `LogItem`.
-/

/-- Protocol constant `NUM_OF_SHARES` (the spec's NUMBER_OF_NONCES). -/
def NUM_OF_SHARES : Nat := 2

/-- Abstract Curve / Digest / Commitment capabilities used by the source. -/
structure Curve where
  Point : Type
  Scalar : Type
  ptAdd : Point → Point → Point
  ptSub : Point → Point → Point
  smul : Point → Scalar → Point
  G : Point
  xCoor : Point → Int
  compress : Point → Int
  sAdd : Scalar → Scalar → Scalar
  sMul : Scalar → Scalar → Scalar
  sZero : Scalar
  ofBigInt : Int → Scalar
  toBigInt : Scalar → Int
  hash : List Int → Int
  commitW : Int → Int → Int
  ptAdd_comm : ∀ a b, ptAdd a b = ptAdd b a
  sMul_comm : ∀ a b, sMul a b = sMul b a
  sMul_assoc : ∀ a b c, sMul (sMul a b) c = sMul a (sMul b c)

/-- Error type returned by the verification functions (curv's `ProofError`). -/
inductive ProofError where
  | mk : ProofError
deriving DecidableEq

/-- Source struct `KeyPair`. -/
structure KeyPair (C : Curve) where
  public_key : C.Point
  private_key : C.Scalar

/-- Source `KeyPair::create_from_private_key`. -/
def KeyPair.create_from_private_key (C : Curve) (sk : Int) : KeyPair C :=
  let private_key := C.ofBigInt sk
  let public_key := C.smul C.G private_key
  ⟨public_key, private_key⟩

/-- Source struct `KeyAgg`. -/
structure KeyAgg (C : Curve) where
  apk : C.Point
  hash : Int

/-- Source `KeyAgg::key_aggregation` (the dedicated two-party routine). -/
def KeyAgg.key_aggregation (C : Curve) (my_pk other_pk : C.Point) : KeyAgg C :=
  let hash := C.hash [1, C.compress my_pk, C.compress my_pk, C.compress other_pk]
  let a1 := C.smul my_pk (C.ofBigInt hash)
  let hash2 := C.hash [1, C.compress other_pk, C.compress my_pk, C.compress other_pk]
  let a2 := C.smul other_pk (C.ofBigInt hash2)
  ⟨C.ptAdd a2 a1, hash⟩

/-- Source `KeyAgg::key_aggregation_n`.  The source panics at
`apk_vec.remove(0)` when the key list is empty and at
`hash_vec[party_index]` when the index is out of range; both panics are
modelled as `none`. -/
def KeyAgg.key_aggregation_n (C : Curve) (pks : List C.Point) (party_index : Nat) :
    Option (KeyAgg C) :=
  let x_coor_vec := pks.map C.compress
  let hash_vec := x_coor_vec.map (fun pk => C.hash (1 :: pk :: x_coor_vec.take pks.length))
  let apk_vec := (pks.zip hash_vec).map (fun p => C.smul p.1 (C.ofBigInt p.2))
  match apk_vec, hash_vec.get? party_index with
  | pk1 :: rest, some h => some ⟨rest.foldl C.ptAdd pk1, h⟩
  | _, _ => none

/-- Source struct `EphemeralKey`. -/
structure EphemeralKey (C : Curve) where
  keypair : KeyPair C
  commitment : Int
  blind_factor : Int

/-- Source `EphemeralKey::create_vec_from_private_key`.  The blinding factor
drawn inside `create_commitment` for slot `i` is supplied as `blinds i`. -/
def EphemeralKey.create_vec_from_private_key (C : Curve) (x1 : KeyPair C)
    (blinds : Nat → Int) : List (EphemeralKey C) :=
  (List.range NUM_OF_SHARES).map (fun (i : Nat) =>
    let hash_private_key_message := C.hash [C.toBigInt x1.private_key, (i : Int)]
    let ephemeral_private_key := C.ofBigInt hash_private_key_message
    let ephemeral_public_key := C.smul C.G ephemeral_private_key
    let commitment := C.commitW (C.compress ephemeral_public_key) (blinds i)
    ⟨⟨ephemeral_public_key, ephemeral_private_key⟩, commitment, blinds i⟩)

/-- Source `EphemeralKey::test_com`. -/
def EphemeralKey.test_com (C : Curve) (r_to_test : C.Point) (blind_factor comm : Int) :
    Bool :=
  C.commitW (C.compress r_to_test) blind_factor == comm

/-- Source struct `Msg`. -/
structure Msg (C : Curve) where
  first_msg : List C.Point
  second_msg : Option C.Scalar

/-- Source struct `State0`. -/
structure State0 (C : Curve) where
  keypair : KeyPair C
  ephk_vec : List (EphemeralKey C)

/-- Source struct `State1` (the Signed phase of a session). -/
structure State1 (C : Curve) where
  R : C.Point
  s_i : C.Scalar
  c : Int
  r_i : C.Scalar
  b_coefficients : List Int

/-- Committed-phase data of a session (alias used so that the `State` field
named `State0` can reference the structure `State0`). -/
abbrev Phase0 (C : Curve) := State0 C

/-- Optional Signed-phase data of a session. -/
abbrev Phase1 (C : Curve) := Option (State1 C)

/-- Source struct `State` (the per-party session). -/
structure State (C : Curve) where
  State0 : Phase0 C
  State1 : Phase1 C
  msg : Msg C

/-- Source `State::get_state_1`; the `unwrap` of the absent Signed phase is
modelled as `none`. -/
def State.get_state_1 (C : Curve) (st : State C) : Phase1 C :=
  st.State1

/-- Source `State::hash_0`: the Fiat-Shamir challenge hash, with the `0` tag
prefixed exactly when `musig_bit` is set. -/
def State.hash_0 (C : Curve) (r_hat apk : C.Point) (message : Int) (musig_bit : Bool) :
    Int :=
  if musig_bit then
    C.hash [0, C.xCoor r_hat, C.compress apk, message]
  else
    C.hash [C.xCoor r_hat, C.compress apk, message]

/-- Source `State::sign_0`: the partial-signature scalar computation. -/
def State.sign_0 (C : Curve) (st : State C) (b_coefficients : List Int) (c : Int)
    (x : KeyPair C) (a : Int) : C.Scalar × C.Scalar :=
  let c_fe := C.ofBigInt c
  let a_fe := C.ofBigInt a
  let lin_comb_ephemeral_i :=
    (st.State0.ephk_vec.zip b_coefficients).foldl
      (fun acc p => C.sAdd acc (C.sMul p.1.keypair.private_key (C.ofBigInt p.2)))
      C.sZero
  let s_fe := C.sAdd lin_comb_ephemeral_i (C.sMul (C.sMul c_fe x.private_key) a_fe)
  (s_fe, lin_comb_ephemeral_i)

/-- Inner fold of `State::add_ephemeral_keys` for one nonce slot `j`: starting
from this party's own point, add every peer's `j`-th point.  The source's
`ephk.get(j).unwrap()` panic on a too-short peer vector is modelled as
`none`. -/
def nonceSum (C : Curve) : List (List C.Point) → Nat → C.Point → Option C.Point
  | [], _, init => some init
  | v :: rest, j, init =>
    match v.get? j with
    | none => none
    | some p => nonceSum C rest j (C.ptAdd init p)

/-- Outer loop of `State::add_ephemeral_keys` over the nonce slots `js`.  The
source's `self.State0.ephk_vec[j]` indexing panic is modelled as `none`. -/
def nonceRows (C : Curve) (own : List (EphemeralKey C)) (msg_vec : List (List C.Point)) :
    List Nat → Option (List C.Point)
  | [] => some []
  | j :: js =>
    match own.get? j with
    | none => none
    | some e =>
      match nonceSum C msg_vec j e.keypair.public_key with
      | none => none
      | some Rj => (nonceRows C own msg_vec js).map (fun t => Rj :: t)

/-- Source `State::add_ephemeral_keys` (the `party_index` argument is unused in
the source and omitted here). -/
def State.add_ephemeral_keys (C : Curve) (st : State C) (msg_vec : List (List C.Point)) :
    Option (List C.Point) :=
  nonceRows C st.State0.ephk_vec msg_vec (List.range NUM_OF_SHARES)

/-- Source `State::sign_1`: create the session, generating the nonce vector
from the long-term key. -/
def State.sign_1 (C : Curve) (x : KeyPair C) (blinds : Nat → Int) : State C :=
  let ephk_vec := EphemeralKey.create_vec_from_private_key C x blinds
  { State0 := ⟨x, ephk_vec⟩
    State1 := none
    msg := ⟨ephk_vec.map (fun e => e.keypair.public_key), none⟩ }

/-- One payload printed by a `println!` in `sign_2`. -/
inductive LogItem (C : Curve) where
  | points : List C.Point → LogItem C
  | pointElem : C.Point → LogItem C
  | state1Item : Phase1 C → LogItem C

/-- Result of `State::sign_2`: the updated session, the two returned points,
and the payloads printed on the way. -/
structure Sign2Out (C : Curve) where
  st : State C
  left_arg : C.Point
  right_arg : C.Point
  log : List (LogItem C)

/-- Inner loop of the blend-coefficient computation: the compressed encodings
`R_j_vec[i]` for `i ∈ is`; an out-of-range index panics (`none`). -/
def rowBytes (C : Curve) (Rjs : List C.Point) : List Nat → Option (List Int)
  | [] => some []
  | i :: is =>
    match Rjs.get? i with
    | none => none
    | some R => (rowBytes C Rjs is).map (fun t => C.compress R :: t)

/-- Blend-coefficient loop of `sign_2` over the slot indices `js`
(`for j in 1..NUM_OF_SHARES` in the source). -/
def bCoefLoop (C : Curve) (apk : C.Point) (Rjs : List C.Point) (message : Int) :
    List Nat → Option (List Int)
  | [] => some []
  | j :: js =>
    match rowBytes C Rjs (List.range NUM_OF_SHARES) with
    | none => none
    | some rcs =>
      (bCoefLoop C apk Rjs message js).map
        (fun t => C.hash ((C.compress apk :: rcs) ++ [message, (j : Int)]) :: t)

/-- Source `State::sign_2`: aggregate the keys, combine the nonce vectors,
derive the blend coefficients and the challenge, compute the partial
signature, store the Signed state and return the two self-check points.
Every `println!` payload is recorded in `log`.  Any panic on the way is
`none`. -/
def State.sign_2 (C : Curve) (st : State C) (message : Int) (pks : List C.Point)
    (msg_vec : List (List C.Point)) (party_index : Nat) : Option (Sign2Out C) :=
  match KeyAgg.key_aggregation_n C pks party_index with
  | none => none
  | some key_agg =>
    match State.add_ephemeral_keys C st msg_vec with
    | none => none
    | some R_j_vec =>
      match bCoefLoop C key_agg.apk R_j_vec message (List.range' 1 (NUM_OF_SHARES - 1)) with
      | none => none
      | some bs =>
        let b_coefficients : List Int := 1 :: bs
        match R_j_vec with
        | [] => none
        | R_j0 :: R_rest =>
          let R_0 := C.smul R_j0 (C.ofBigInt 1)
          let R := ((R_rest.zip bs).map (fun p => C.smul p.1 (C.ofBigInt p.2))).foldl
            C.ptAdd R_0
          let c := State.hash_0 C R key_agg.apk message true
          let si_ri := State.sign_0 C st b_coefficients c st.State0.keypair key_agg.hash
          let left_arg := C.smul C.G si_ri.1
          let a_i := C.ofBigInt key_agg.hash
          let c_fe := C.ofBigInt c
          let right_arg :=
            C.ptAdd (C.smul (C.smul st.State0.keypair.public_key a_i) c_fe)
              (C.smul C.G si_ri.2)
          let s1 : Phase1 C := some ⟨R, si_ri.1, c, si_ri.2, b_coefficients⟩
          some
            { st := { st with State1 := s1 }
              left_arg := left_arg
              right_arg := right_arg
              log := [LogItem.points (R_j0 :: R_rest), LogItem.pointElem left_arg,
                      LogItem.pointElem right_arg, LogItem.state1Item s1] }

/-- Source `State::sign_3`: sum of the party's own partial signature and the
given peer partial signatures; the `unwrap` of the absent Signed phase is
modelled as `none`. -/
def State.sign_3 (C : Curve) (st : State C) (msg_vec : List C.Scalar) :
    Option C.Scalar :=
  match st.State1 with
  | none => none
  | some s1 => some (msg_vec.foldl C.sAdd s1.s_i)

/-- Source `State::add_signature_parts`. -/
def State.add_signature_parts (C : Curve) (s1 : Int) (s2 : Int) (r_tag : C.Point) :
    Int × Int :=
  if s2 = 0 then
    (C.xCoor r_tag, s1)
  else
    (C.xCoor r_tag, C.toBigInt (C.sAdd (C.ofBigInt s1) (C.ofBigInt s2)))

/-- Source free function `verify_partial`.  The source compares the hex
renderings of the two x-coordinates; `to_hex` is injective on `BigInt`, so
the comparison is modelled as integer equality. -/
def verify_partial (C : Curve) (signature : C.Scalar) (r_x : Int) (c a : C.Scalar)
    (key_pub : C.Point) : Except ProofError Unit :=
  let sG := C.smul C.G signature
  let cY := C.smul (C.smul key_pub a) c
  let sG2 := C.ptSub sG cY
  if C.xCoor sG2 = r_x then Except.ok () else Except.error ProofError.mk

/-- Source free function `verify`. -/
def verify (C : Curve) (signature : C.Scalar) (r_x : Int) (apk : C.Point) (c : Int) :
    Except ProofError Unit :=
  let base_point := C.G
  let sG := C.smul base_point signature
  let c_fe := C.ofBigInt c
  let cY := C.smul apk c_fe
  let sG2 := C.ptSub sG cY
  if C.xCoor sG2 = r_x then Except.ok () else Except.error ProofError.mk

/-! Specification-side definitions, written from the claims' wording, to be
compared with the embedding above. -/

/-- Spec wording (C2): per-key coefficient `Digest(1, X_i, X_0, …, X_{n-1})`. -/
def specCoef (C : Curve) (pks : List C.Point) (X : C.Point) : Int :=
  C.hash (1 :: C.compress X :: pks.map C.compress)

/-- Sum of a non-empty list of curve points (the group has no represented
identity, so the empty sum is `none`). -/
def sumPoints (C : Curve) : List C.Point → Option C.Point
  | [] => none
  | p :: ps => some (ps.foldl C.ptAdd p)

/-- Spec wording (C2): `apk = Σ a_i · X_i`. -/
def apkSpec (C : Curve) (pks : List C.Point) : Option C.Point :=
  sumPoints C (pks.map (fun X => C.smul X (C.ofBigInt (specCoef C pks X))))

/-- Sum of a list of scalars. -/
def sumScalars (C : Curve) (l : List C.Scalar) : C.Scalar :=
  l.foldl C.sAdd C.sZero

/-- The `j`-th entries of the peers' nonce vectors (`d` is a dummy default,
irrelevant for vectors of the right shape). -/
def column (msg_vec : List (List α)) (j : Nat) (d : α) : List α :=
  msg_vec.map (fun v => v.getD j d)

/-- Spec wording (C1): `R_j` is the sum of this party's own `j`-th ephemeral
public point and every peer's `j`-th point. -/
def claimRj (C : Curve) (own : C.Point) (peers : List C.Point) : C.Point :=
  peers.foldl C.ptAdd own

/-- Code-shaped column sum used to state the master `sign_2` lemma. -/
def peersSum (C : Curve) (msg_vec : List (List C.Point)) (j : Nat) (init : C.Point) :
    C.Point :=
  msg_vec.foldl (fun acc v => C.ptAdd acc (v.getD j init)) init

/-- Spec wording (C1): blend coefficients, `b_0 = 1` and for `j ≥ 1`
`b_j = Digest(apk, R_0, …, R_{k-1}, message, j)`. -/
def specB (C : Curve) (apk : C.Point) (Rjs : List C.Point) (message : Int) (j : Nat) :
    Int :=
  if j = 0 then 1
  else C.hash ((C.compress apk :: Rjs.map C.compress) ++ [message, (j : Int)])

/-- The ephemeral private scalar of slot `j`: `Digest(private_key, j)` reduced
into the scalar field (spec wording, C7). -/
def ephPriv (C : Curve) (x : KeyPair C) (j : Nat) : C.Scalar :=
  C.ofBigInt (C.hash [C.toBigInt x.private_key, (j : Int)])

/-- The ephemeral public point of slot `j`. -/
def ephPub (C : Curve) (x : KeyPair C) (j : Nat) : C.Point :=
  C.smul C.G (ephPriv C x j)

/-! Concrete instances of the capabilities, used by the witnesses and the
counterexamples. -/

/-- A small concrete instantiation of the capabilities: points and scalars are
integers, scalar multiplication is integer multiplication, `ofBigInt`
reduces modulo 97 (mimicking reduction modulo the group order), and the
digest is an injective-enough fold. -/
@[reducible] def intCurve : Curve where
  Point := Int
  Scalar := Int
  ptAdd := fun a b => a + b
  ptSub := fun a b => a - b
  smul := fun p s => p * s
  G := 2
  xCoor := fun p => p
  compress := fun p => p + 100
  sAdd := fun a b => a + b
  sMul := fun a b => a * b
  sZero := 0
  ofBigInt := fun n => n % 97
  toBigInt := fun s => s
  hash := fun l => l.foldl (fun a b => a * 31 + b) 7
  commitW := fun v b => v * 1000 + b
  ptAdd_comm := Int.add_comm
  sMul_comm := Int.mul_comm
  sMul_assoc := Int.mul_assoc

/-- A deliberately broken instantiation: point-by-scalar multiplication has an
off-by-one, so the group identity `s·G = X·a·c + G·r` behind the
self-consistency check fails.  It stands for the "internal bug" scenario the
specification's self-check is meant to catch. -/
@[reducible] def brokenCurve : Curve where
  Point := Int
  Scalar := Int
  ptAdd := fun a b => a + b
  ptSub := fun a b => a - b
  smul := fun p s => p * s + 1
  G := 2
  xCoor := fun p => p
  compress := fun p => p + 100
  sAdd := fun a b => a + b
  sMul := fun a b => a * b
  sZero := 0
  ofBigInt := fun n => n % 97
  toBigInt := fun s => s
  hash := fun l => l.foldl (fun a b => a * 31 + b) 7
  commitW := fun v b => v * 1000 + b
  ptAdd_comm := Int.add_comm
  sMul_comm := Int.mul_comm
  sMul_assoc := Int.mul_assoc

/-- Concrete keypair over `intCurve`. -/
def toyKey : KeyPair intCurve := ⟨10, 5⟩

/-- Concrete blinding factors. -/
def toyBlinds : Nat → Int := fun i => (i : Int) + 3

/-- Concrete keypair over `brokenCurve`. -/
def brokenKey : KeyPair brokenCurve := ⟨11, 5⟩

/-- Concrete session state over `intCurve` already in the Signed phase, used
by the signature-combination witness. -/
def toySignedState : State intCurve :=
  { State0 := ⟨toyKey, []⟩
    State1 := some ⟨4, 10, 6, 7, [1, 2]⟩
    msg := ⟨[], none⟩ }

/-- The value `sign_2` computes on a session freshly created by `sign_1`,
spelled out: used as the right-hand side of the master evaluation lemma. -/
def sign2Expected (C : Curve) (x : KeyPair C) (blinds : Nat → Int) (message : Int)
    (msg_vec : List (List C.Point)) (ka : KeyAgg C) : Sign2Out C :=
  let R0 := peersSum C msg_vec 0 (ephPub C x 0)
  let R1 := peersSum C msg_vec 1 (ephPub C x 1)
  let b1 := C.hash [C.compress ka.apk, C.compress R0, C.compress R1, message, 1]
  let R := C.ptAdd (C.smul R0 (C.ofBigInt 1)) (C.smul R1 (C.ofBigInt b1))
  let c := State.hash_0 C R ka.apk message true
  let lin := C.sAdd (C.sAdd C.sZero (C.sMul (ephPriv C x 0) (C.ofBigInt 1)))
      (C.sMul (ephPriv C x 1) (C.ofBigInt b1))
  let s_i := C.sAdd lin (C.sMul (C.sMul (C.ofBigInt c) x.private_key) (C.ofBigInt ka.hash))
  let left_arg := C.smul C.G s_i
  let right_arg := C.ptAdd (C.smul (C.smul x.public_key (C.ofBigInt ka.hash)) (C.ofBigInt c))
      (C.smul C.G lin)
  let s1 : State1 C := ⟨R, s_i, c, lin, [1, b1]⟩
  { st := { State0 := ⟨x, EphemeralKey.create_vec_from_private_key C x blinds⟩
            State1 := some s1
            msg := ⟨(EphemeralKey.create_vec_from_private_key C x blinds).map
                      (fun e => e.keypair.public_key), none⟩ }
    left_arg := left_arg
    right_arg := right_arg
    log := [LogItem.points [R0, R1], LogItem.pointElem left_arg,
            LogItem.pointElem right_arg, LogItem.state1Item (some s1)] }

/-! Helper lemmas. -/

/-- The generated ephemeral-key vector, written out for `NUM_OF_SHARES = 2`. -/
lemma create_vec_eq (C : Curve) (x : KeyPair C) (blinds : Nat → Int) :
    EphemeralKey.create_vec_from_private_key C x blinds =
      [⟨⟨ephPub C x 0, ephPriv C x 0⟩, C.commitW (C.compress (ephPub C x 0)) (blinds 0),
         blinds 0⟩,
       ⟨⟨ephPub C x 1, ephPriv C x 1⟩, C.commitW (C.compress (ephPub C x 1)) (blinds 1),
         blinds 1⟩] := rfl

/-- `nonceSum` succeeds on column `j` of vectors that are long enough, and
computes the column fold. -/
lemma nonceSum_eq (C : Curve) (j : Nat) (d : C.Point) :
    ∀ (l : List (List C.Point)) (init : C.Point), (∀ v ∈ l, j < v.length) →
      nonceSum C l j init =
        some (l.foldl (fun acc v => C.ptAdd acc (v.getD j d)) init) := by
  intro l
  induction l with
  | nil => intro init _; rfl
  | cons v rest ih =>
    intro init h
    have hv : j < v.length := h v (List.mem_cons_self _ _)
    have hget : v.get? j = some (v.get ⟨j, hv⟩) := List.get?_eq_get hv
    have hgetD : v.getD j d = v.get ⟨j, hv⟩ := by
      rw [List.getD_eq_get?, hget]; rfl
    simp only [nonceSum, hget, List.foldl_cons, hgetD]
    exact ih (C.ptAdd init (v.get ⟨j, hv⟩)) (fun w hw => h w (List.mem_cons_of_mem _ hw))

/-- `nonceSum` hits the modelled panic as soon as one vector is too short. -/
lemma nonceSum_none (C : Curve) (j : Nat) :
    ∀ (l : List (List C.Point)) (init : C.Point) (v : List C.Point),
      v ∈ l → v.get? j = none → nonceSum C l j init = none := by
  intro l
  induction l with
  | nil => intro init v hv; cases hv
  | cons w rest ih =>
    intro init v hv hnone
    rcases List.mem_cons.mp hv with h1 | h2
    · subst h1
      simp only [nonceSum, hnone]
    · cases hw : w.get? j with
      | none => simp only [nonceSum, hw]
      | some p =>
        simp only [nonceSum, hw]
        exact ih _ v h2 hnone

/-- `nonceRows` hits the modelled panic when some requested slot `j` exceeds a
peer vector's length. -/
lemma nonceRows_none (C : Curve) (own : List (EphemeralKey C))
    (msg_vec : List (List C.Point)) (v : List C.Point) (hv : v ∈ msg_vec) (j : Nat)
    (hj : v.get? j = none) :
    ∀ (js : List Nat), j ∈ js → nonceRows C own msg_vec js = none := by
  intro js
  induction js with
  | nil => intro h; cases h
  | cons j0 js ih =>
    intro hmem
    cases hoj : own.get? j0 with
    | none => simp only [nonceRows, hoj]
    | some e =>
      rcases List.mem_cons.mp hmem with h1 | h2
      · subst h1
        simp only [nonceRows, hoj,
          nonceSum_none C j msg_vec e.keypair.public_key v hv hj]
      · simp only [nonceRows, hoj]
        cases hs : nonceSum C msg_vec j0 e.keypair.public_key with
        | none => rfl
        | some Rj => simp only [ih h2, Option.map_none']

/-- Combining the revealed nonce vectors on a fresh `sign_1` session: both
slot sums are computed. -/
lemma add_ephemeral_keys_sign_1 (C : Curve) (x : KeyPair C) (blinds : Nat → Int)
    (msg_vec : List (List C.Point))
    (hshape : ∀ v ∈ msg_vec, NUM_OF_SHARES ≤ v.length) :
    State.add_ephemeral_keys C (State.sign_1 C x blinds) msg_vec =
      some [peersSum C msg_vec 0 (ephPub C x 0), peersSum C msg_vec 1 (ephPub C x 1)] := by
  have hs0 : nonceSum C msg_vec 0 (ephPub C x 0) =
      some (peersSum C msg_vec 0 (ephPub C x 0)) :=
    nonceSum_eq C 0 (ephPub C x 0) msg_vec (ephPub C x 0)
      (fun v hv => lt_of_lt_of_le (by decide) (hshape v hv))
  have hs1 : nonceSum C msg_vec 1 (ephPub C x 1) =
      some (peersSum C msg_vec 1 (ephPub C x 1)) :=
    nonceSum_eq C 1 (ephPub C x 1) msg_vec (ephPub C x 1)
      (fun v hv => lt_of_lt_of_le (by decide) (hshape v hv))
  show nonceRows C (EphemeralKey.create_vec_from_private_key C x blinds) msg_vec
      (List.range NUM_OF_SHARES) = _
  rw [show List.range NUM_OF_SHARES = [0, 1] from rfl, create_vec_eq]
  simp only [nonceRows, List.get?, hs0, hs1, Option.map_some']

/-- Mapping over a list zipped with a mapped copy of itself. -/
lemma zip_self_map {α β γ : Type _} (f : α → β) (g : α × β → γ) :
    ∀ (l : List α), (l.zip (l.map f)).map g = l.map (fun a => g (a, f a))
  | [] => rfl
  | a :: t => by
    simp only [List.map_cons, List.zip_cons_cons, zip_self_map f g t]

/-- Evaluation of `key_aggregation_n` on a non-empty list and an in-range
index: the per-key coefficients are the `specCoef` digests and the result
is their weighted point sum. -/
lemma keyAggN_some (C : Curve) (P : C.Point) (Ps : List C.Point) (i : Nat)
    (hi : i < (P :: Ps).length) :
    KeyAgg.key_aggregation_n C (P :: Ps) i =
      some ⟨(Ps.map (fun X => C.smul X (C.ofBigInt (specCoef C (P :: Ps) X)))).foldl
              C.ptAdd (C.smul P (C.ofBigInt (specCoef C (P :: Ps) P))),
            specCoef C (P :: Ps) ((P :: Ps).get ⟨i, hi⟩)⟩ := by
  have htake : ((P :: Ps).map C.compress).take (P :: Ps).length = (P :: Ps).map C.compress := by
    rw [show (P :: Ps).length = ((P :: Ps).map C.compress).length from
          (List.length_map _ _).symm,
        List.take_length]
  have hget : ((P :: Ps).map
      ((fun pk => C.hash (1 :: pk :: (P :: Ps).map C.compress)) ∘ C.compress)).get? i =
      some (specCoef C (P :: Ps) ((P :: Ps).get ⟨i, hi⟩)) := by
    rw [List.get?_map, List.get?_eq_get hi]
    rfl
  simp only [KeyAgg.key_aggregation_n]
  rw [htake, List.map_map, zip_self_map, hget, List.map_cons]
  rfl

/-- `key_aggregation_n` hits the modelled panic on an out-of-range index. -/
lemma keyAggN_none (C : Curve) (pks : List C.Point) (i : Nat) (h : pks.length ≤ i) :
    KeyAgg.key_aggregation_n C pks i = none := by
  cases pks with
  | nil => rfl
  | cons P Ps =>
    simp only [KeyAgg.key_aggregation_n]
    have hnone : ((((P :: Ps).map C.compress)).map
        (fun pk => C.hash (1 :: pk :: ((P :: Ps).map C.compress).take (P :: Ps).length))).get? i =
        none := by
      apply List.get?_eq_none.mpr
      simpa using h
    rw [hnone]
    split <;> simp_all

/-- Master evaluation lemma for `sign_2` on a fresh `sign_1` session. -/
lemma sign_2_sign_1_eq (C : Curve) (x : KeyPair C) (blinds : Nat → Int) (message : Int)
    (pks : List C.Point) (party_index : Nat) (msg_vec : List (List C.Point))
    (ka : KeyAgg C)
    (hka : KeyAgg.key_aggregation_n C pks party_index = some ka)
    (hshape : ∀ v ∈ msg_vec, NUM_OF_SHARES ≤ v.length) :
    State.sign_2 C (State.sign_1 C x blinds) message pks msg_vec party_index =
      some (sign2Expected C x blinds message msg_vec ka) := by
  unfold State.sign_2
  rw [hka, add_ephemeral_keys_sign_1 C x blinds msg_vec hshape]
  rfl

/-- Bridging lemma: the fold of `peersSum` is the claim's "own point plus
every peer's j-th point" sum. -/
lemma peersSum_claimRj (C : Curve) (msg_vec : List (List C.Point)) (j : Nat)
    (d : C.Point) :
    claimRj C d (column msg_vec j d) = peersSum C msg_vec j d := by
  unfold claimRj column peersSum
  rw [List.foldl_map]

/-- Commutativity bridge for the local nonce linear combination. -/
lemma scalar_comm_bridge (C : Curve) (p0 p1 c1 cb : C.Scalar) :
    C.sAdd (C.sAdd C.sZero (C.sMul p0 c1)) (C.sMul p1 cb) =
      C.sAdd (C.sAdd C.sZero (C.sMul c1 p0)) (C.sMul cb p1) := by
  rw [C.sMul_comm p0 c1, C.sMul_comm p1 cb]

/-- Associativity/commutativity bridge: `(c·x)·a = (c·a)·x`. -/
lemma scalar_assoc_bridge (C : Curve) (l cv av xv : C.Scalar) :
    C.sAdd l (C.sMul (C.sMul cv xv) av) = C.sAdd l (C.sMul (C.sMul cv av) xv) := by
  rw [C.sMul_assoc cv xv av, C.sMul_comm xv av, ← C.sMul_assoc cv av xv]

/-! Claim theorems. -/

/-- Claim C10: on a session freshly produced by `sign_1` (the Signed phase is
still absent), both `get_state_1` and `sign_3` hit the modelled panic
(`none`, the `unwrap` of a `None` option) instead of returning an error
value. -/
theorem get_state_1_sign_3_panic_before_sign_2 (C : Curve) (x : KeyPair C)
    (blinds : Nat → Int) (msgs : List C.Scalar) :
    State.get_state_1 C (State.sign_1 C x blinds) = none ∧
    State.sign_3 C (State.sign_1 C x blinds) msgs = none :=
  ⟨rfl, rfl⟩

/-- Claim C8: `sign_3` sums the party's own partial signature with every peer
partial signature; `add_signature_parts` returns `R`'s x-coordinate with the
scalar-field sum `s1 + s2` in the general case and returns `s1` unchanged in
the single-party degenerate case (marked by `s2 = 0`). -/
theorem signature_combination_sums :
    (∀ (C : Curve) (st : State C) (s1 : State1 C) (msgs : List C.Scalar),
       st.State1 = some s1 →
       State.sign_3 C st msgs = some (msgs.foldl C.sAdd s1.s_i)) ∧
    (∀ (C : Curve) (s1 s2 : Int) (R : C.Point), s2 ≠ 0 →
       State.add_signature_parts C s1 s2 R =
         (C.xCoor R, C.toBigInt (C.sAdd (C.ofBigInt s1) (C.ofBigInt s2)))) ∧
    (∀ (C : Curve) (s1 : Int) (R : C.Point),
       State.add_signature_parts C s1 0 R = (C.xCoor R, s1)) := by
  refine ⟨?_, ?_, ?_⟩
  · intro C st s1 msgs h
    simp [State.sign_3, h]
  · intro C s1 s2 R h
    simp [State.add_signature_parts, h]
  · intro C s1 R
    simp [State.add_signature_parts]

/-- Witness for claim C8, at the concrete `intCurve` instance. -/
theorem signature_combination_sums_w :
    State.sign_3 intCurve toySignedState [2, 3] = some 15 ∧
    State.add_signature_parts intCurve 5 7 9 = (9, 12) ∧
    State.add_signature_parts intCurve 5 0 9 = (9, 5) :=
  ⟨(signature_combination_sums.1 intCurve toySignedState ⟨4, 10, 6, 7, [1, 2]⟩
      [2, 3] rfl).trans (by decide),
   (signature_combination_sums.2.1 intCurve 5 7 9 (by decide)).trans (by decide),
   signature_combination_sums.2.2 intCurve 5 9⟩

/-- Claim C5: `verify` succeeds exactly when `s·G − c·apk` has x-coordinate
`r_x` and returns the `ProofError` otherwise, and likewise
`verify_partial` for `s_i·G − c·a_i·X_i`; both are total functions of their
inputs (the embedding carries no panic case: the only unwrap in the source,
after `x_coor()`, is total in the curve backend). -/
theorem verify_checks_xcoor_equation (C : Curve) (s : C.Scalar) (r_x : Int)
    (apk : C.Point) (c : Int) (s_i c_fe a_fe : C.Scalar) (X : C.Point) :
    (verify C s r_x apk c = Except.ok () ↔
       C.xCoor (C.ptSub (C.smul C.G s) (C.smul apk (C.ofBigInt c))) = r_x) ∧
    (verify C s r_x apk c = Except.error ProofError.mk ↔
       ¬ C.xCoor (C.ptSub (C.smul C.G s) (C.smul apk (C.ofBigInt c))) = r_x) ∧
    (( verify_partial C s_i r_x c_fe a_fe X = Except.ok ()) ↔
       C.xCoor (C.ptSub (C.smul C.G s_i) (C.smul (C.smul X a_fe) c_fe)) = r_x) ∧
    (( verify_partial C s_i r_x c_fe a_fe X = Except.error ProofError.mk) ↔
       ¬ C.xCoor (C.ptSub (C.smul C.G s_i) (C.smul (C.smul X a_fe) c_fe)) = r_x) := by
  refine ⟨?_, ?_, ?_, ?_⟩
  · by_cases h : C.xCoor (C.ptSub (C.smul C.G s) (C.smul apk (C.ofBigInt c))) = r_x <;>
      simp [verify, h]
  · by_cases h : C.xCoor (C.ptSub (C.smul C.G s) (C.smul apk (C.ofBigInt c))) = r_x <;>
      simp [verify, h]
  · by_cases h : C.xCoor (C.ptSub (C.smul C.G s_i) (C.smul (C.smul X a_fe) c_fe)) = r_x <;>
      simp [ verify_partial, h]
  · by_cases h : C.xCoor (C.ptSub (C.smul C.G s_i) (C.smul (C.smul X a_fe) c_fe)) = r_x <;>
      simp [ verify_partial, h]

/-- Claim C6: the two-party routine agrees with the n-party routine on the
two-element list with index 0, for the aggregated key and the returned
coefficient. -/
theorem two_party_agg_matches_n_party (C : Curve) (P1 P2 : C.Point) :
    ∃ ka, KeyAgg.key_aggregation_n C [P1, P2] 0 = some ka ∧
      ka.apk = (KeyAgg.key_aggregation C P1 P2).apk ∧
      ka.hash = (KeyAgg.key_aggregation C P1 P2).hash := by
  refine ⟨_, keyAggN_some C P1 [P2] 0 (by simp), ?_, rfl⟩
  exact C.ptAdd_comm (C.smul P1 (C.ofBigInt (specCoef C [P1, P2] P1)))
    (C.smul P2 (C.ofBigInt (specCoef C [P1, P2] P2)))

/-- Claim C7: the generated nonce vector has exactly `NUM_OF_SHARES ≥ 2`
entries; entry `j` carries the private scalar `Digest(private_key, j)`, the
matching public point, and a commitment to the compressed point under the
stored blinding factor. -/
theorem create_vec_props (C : Curve) (x : KeyPair C) (blinds : Nat → Int) :
    (EphemeralKey.create_vec_from_private_key C x blinds).length = NUM_OF_SHARES ∧
    2 ≤ NUM_OF_SHARES ∧
    ∀ j, j < NUM_OF_SHARES →
      ∃ e, (EphemeralKey.create_vec_from_private_key C x blinds).get? j = some e ∧
        e.keypair.private_key = C.ofBigInt (C.hash [C.toBigInt x.private_key, (j : Int)]) ∧
        e.keypair.public_key = C.smul C.G e.keypair.private_key ∧
        e.commitment = C.commitW (C.compress e.keypair.public_key) e.blind_factor ∧
        e.blind_factor = blinds j := by
  refine ⟨rfl, by decide, ?_⟩
  intro j hj
  have hj2 : j < 2 := hj
  clear hj
  interval_cases j
  · exact ⟨_, rfl, rfl, rfl, rfl, rfl⟩
  · exact ⟨_, rfl, rfl, rfl, rfl, rfl⟩

/-- Witness for claim C7: slot 1 over the concrete `intCurve` instance. -/
theorem create_vec_props_w :
    ∃ e, (EphemeralKey.create_vec_from_private_key intCurve toyKey toyBlinds).get? 1 =
        some e ∧
      e.keypair.private_key =
        intCurve.ofBigInt (intCurve.hash [intCurve.toBigInt toyKey.private_key,
          ((1 : Nat) : Int)]) ∧
      e.keypair.public_key = intCurve.smul intCurve.G e.keypair.private_key ∧
      e.commitment = intCurve.commitW (intCurve.compress e.keypair.public_key)
        e.blind_factor ∧
      e.blind_factor = toyBlinds 1 :=
  (create_vec_props intCurve toyKey toyBlinds).2.2 1 (by decide)

/-- Counterexample to claim C4 as stated: aggregating the empty key list does
not produce an `InvalidInput` error value; the call hits the modelled panic
(`none`, the source's `Vec::remove(0)` on an empty vector). -/
theorem key_aggregation_empty_no_error_cex :
    KeyAgg.key_aggregation_n intCurve ([] : List intCurve.Point) 0 = none := rfl

/-- Claim C4 amended: key aggregation panics (modelled `none`) on an empty key
list or an out-of-range party index, and nonce combination panics on a
too-short peer nonce vector; no `InvalidInput` error value exists in the
source. -/
theorem aggregation_and_nonce_inputs_panic :
    (∀ (C : Curve) (i : Nat),
       KeyAgg.key_aggregation_n C ([] : List C.Point) i = none) ∧
    (∀ (C : Curve) (pks : List C.Point) (i : Nat), pks.length ≤ i →
       KeyAgg.key_aggregation_n C pks i = none) ∧
    (∀ (C : Curve) (x : KeyPair C) (blinds : Nat → Int)
       (msg_vec : List (List C.Point)) (v : List C.Point),
       v ∈ msg_vec → v.length < NUM_OF_SHARES →
       State.add_ephemeral_keys C (State.sign_1 C x blinds) msg_vec = none) := by
  refine ⟨fun C i => rfl, fun C pks i h => keyAggN_none C pks i h, ?_⟩
  intro C x blinds msg_vec v hv hlen
  have hnone : v.get? v.length = none := List.get?_eq_none.mpr le_rfl
  have hmem : v.length ∈ List.range NUM_OF_SHARES := List.mem_range.mpr hlen
  exact nonceRows_none C _ msg_vec v hv v.length hnone (List.range NUM_OF_SHARES) hmem

/-- Witness for the amended claim C4, at concrete inputs. -/
theorem aggregation_and_nonce_inputs_panic_w :
    KeyAgg.key_aggregation_n intCurve [3] 5 = none ∧
    State.add_ephemeral_keys intCurve (State.sign_1 intCurve toyKey toyBlinds)
      [[4]] = none :=
  ⟨aggregation_and_nonce_inputs_panic.2.1 intCurve [3] 5 (by decide),
   aggregation_and_nonce_inputs_panic.2.2 intCurve toyKey toyBlinds [[4]] [4]
     (by decide) (by decide)⟩

/-- Claim C2: for a non-empty ordered key list and an in-range index,
`key_aggregation_n` returns the coefficient
`Digest(1, X_i, X_0, …, X_{n-1})` for the indexed key and the aggregated
key `Σ a_i · X_i`; the computation is deterministic. -/
theorem key_aggregation_n_coefficients_apk (C : Curve) (pks : List C.Point) (i : Nat)
    (h1 : pks ≠ []) (h2 : i < pks.length) :
    ∃ ka, KeyAgg.key_aggregation_n C pks i = some ka ∧
      (∀ X, pks.get? i = some X → ka.hash = specCoef C pks X) ∧
      some ka.apk = apkSpec C pks ∧
      KeyAgg.key_aggregation_n C pks i = KeyAgg.key_aggregation_n C pks i := by
  cases pks with
  | nil => exact absurd rfl h1
  | cons P Ps =>
    refine ⟨_, keyAggN_some C P Ps i h2, ?_, rfl, rfl⟩
    intro X hX
    rw [List.get?_eq_get h2] at hX
    injection hX with hX
    rw [← hX]

/-- Witness for claim C2, at the concrete `intCurve` instance. -/
theorem key_aggregation_n_coefficients_apk_w :
    ∃ ka, KeyAgg.key_aggregation_n intCurve [3, 5] 1 = some ka ∧
      (∀ X, ([3, 5] : List intCurve.Point).get? 1 = some X →
        ka.hash = specCoef intCurve [3, 5] X) ∧
      some ka.apk = apkSpec intCurve [3, 5] ∧
      KeyAgg.key_aggregation_n intCurve [3, 5] 1 =
        KeyAgg.key_aggregation_n intCurve [3, 5] 1 :=
  key_aggregation_n_coefficients_apk intCurve [3, 5] 1 (by decide) (by decide)

/-- Claim C1: on a session created by `sign_1` and peer nonce vectors of the
right shape, `sign_2` computes each `R_j` as the party's own `j`-th point
plus every peer's `j`-th point, the blend coefficients `b_0 = 1` and
`b_j = Digest(apk, R_0, …, R_{k-1}, message, j)` for `j ≥ 1` with
`k = NUM_OF_SHARES`, the combined nonce `R = Σ_j b_j · R_j`, the challenge
`c = H_0(R, apk, message, musig)` where `H_0` prefixes the tag `0` exactly
when the musig flag is set, and the partial signature
`s_i = (Σ_j b_j · r_j) + c · a_i · x_i`; all of these are stored in the
session's Signed state. -/
theorem sign_2_stores_claimed_values (C : Curve) (x : KeyPair C) (blinds : Nat → Int)
    (message : Int) (pks : List C.Point) (party_index : Nat)
    (msg_vec : List (List C.Point))
    (h1 : pks ≠ []) (h2 : party_index < pks.length)
    (hshape : ∀ v ∈ msg_vec, NUM_OF_SHARES ≤ v.length) :
    ∃ ka Rjs out s1,
      KeyAgg.key_aggregation_n C pks party_index = some ka ∧
      State.add_ephemeral_keys C (State.sign_1 C x blinds) msg_vec = some Rjs ∧
      State.sign_2 C (State.sign_1 C x blinds) message pks msg_vec party_index =
        some out ∧
      out.st.State1 = some s1 ∧
      (∀ j, j < NUM_OF_SHARES →
        Rjs.get? j = some (claimRj C (ephPub C x j) (column msg_vec j (ephPub C x j)))) ∧
      s1.b_coefficients = (List.range NUM_OF_SHARES).map (specB C ka.apk Rjs message) ∧
      some s1.R = sumPoints C (List.zipWith (fun b Rj => C.smul Rj (C.ofBigInt b))
        s1.b_coefficients Rjs) ∧
      s1.c = State.hash_0 C s1.R ka.apk message true ∧
      (∀ (Rp Ap : C.Point) (m : Int),
        State.hash_0 C Rp Ap m true = C.hash [0, C.xCoor Rp, C.compress Ap, m] ∧
        State.hash_0 C Rp Ap m false = C.hash [C.xCoor Rp, C.compress Ap, m]) ∧
      s1.r_i = sumScalars C (List.zipWith (fun b r => C.sMul (C.ofBigInt b) r)
        s1.b_coefficients
        ((State.sign_1 C x blinds).State0.ephk_vec.map
          (fun e => e.keypair.private_key))) ∧
      s1.s_i = C.sAdd s1.r_i
        (C.sMul (C.sMul (C.ofBigInt s1.c) (C.ofBigInt ka.hash)) x.private_key) := by
  cases pks with
  | nil => exact absurd rfl h1
  | cons P Ps =>
    have hka := keyAggN_some C P Ps party_index h2
    have hadd := add_ephemeral_keys_sign_1 C x blinds msg_vec hshape
    have hmaster := sign_2_sign_1_eq C x blinds message (P :: Ps) party_index msg_vec _
      hka hshape
    refine ⟨_, _, _, _, hka, hadd, hmaster, rfl, ?_, rfl, rfl, rfl,
      fun Rp Ap m => ⟨rfl, rfl⟩, scalar_comm_bridge C _ _ _ _,
      scalar_assoc_bridge C _ _ _ _⟩
    intro j hj
    have hj2 : j < 2 := hj
    clear hj
    interval_cases j
    · rw [peersSum_claimRj]
      rfl
    · rw [peersSum_claimRj]
      rfl

/-- Witness for claim C1: concrete two-party-shaped run over `intCurve`. -/
theorem sign_2_stores_claimed_values_w :
    ∃ out, State.sign_2 intCurve (State.sign_1 intCurve toyKey toyBlinds) 9 [10]
        [[4, 6]] 0 = some out ∧
      out.st.State1.isSome = true := by
  obtain ⟨ka, Rjs, out, s1, h⟩ := sign_2_stores_claimed_values intCurve toyKey toyBlinds
    9 [10] 0 [[4, 6]] (by decide) (by decide) (by decide)
  refine ⟨out, h.2.2.1, ?_⟩
  rw [h.2.2.2.1]
  rfl

/-- Claim C9 is refuted by this theorem: whenever `sign_2` succeeds, its
printed output (the modelled `println!` log) contains the stored Signed
state, which carries the secret combined local nonce scalar `r_i` (the
blend-weighted sum of the party's own ephemeral private scalars). -/
theorem sign_2_logs_local_nonce_scalar (C : Curve) (x : KeyPair C) (blinds : Nat → Int)
    (message : Int) (pks : List C.Point) (party_index : Nat)
    (msg_vec : List (List C.Point))
    (h1 : pks ≠ []) (h2 : party_index < pks.length)
    (hshape : ∀ v ∈ msg_vec, NUM_OF_SHARES ≤ v.length) :
    ∃ out s1,
      State.sign_2 C (State.sign_1 C x blinds) message pks msg_vec party_index =
        some out ∧
      out.st.State1 = some s1 ∧
      LogItem.state1Item (some s1) ∈ out.log ∧
      s1.r_i = C.sAdd (C.sAdd C.sZero (C.sMul (ephPriv C x 0) (C.ofBigInt 1)))
        (C.sMul (ephPriv C x 1) (C.ofBigInt (s1.b_coefficients.getD 1 0))) := by
  cases pks with
  | nil => exact absurd rfl h1
  | cons P Ps =>
    have hka := keyAggN_some C P Ps party_index h2
    have hmaster := sign_2_sign_1_eq C x blinds message (P :: Ps) party_index msg_vec _
      hka hshape
    refine ⟨_, _, hmaster, rfl, ?_, rfl⟩
    exact List.mem_cons_of_mem _ (List.mem_cons_of_mem _ (List.mem_cons_of_mem _
      (List.mem_cons_self _ _)))

/-- Witness for the C9 theorem: the log of a concrete `sign_2` run contains
the Signed state. -/
theorem sign_2_logs_local_nonce_scalar_w :
    ∃ out s1,
      State.sign_2 intCurve (State.sign_1 intCurve toyKey toyBlinds) 9 [10]
        [[4, 6]] 0 = some out ∧
      out.st.State1 = some s1 ∧
      LogItem.state1Item (some s1) ∈ out.log := by
  obtain ⟨out, s1, ho, hs, hm, _⟩ := sign_2_logs_local_nonce_scalar intCurve toyKey
    toyBlinds 9 [10] 0 [[4, 6]] (by decide) (by decide) (by decide)
  exact ⟨out, s1, ho, hs, hm⟩

/-- Claim C3 is refuted by this theorem: `sign_2` performs no comparison of
the two self-check points (the source's `assert_eq!` is commented out).  At
a curve instance with a broken scalar multiplication — the "internal bug"
the check is meant to catch — the two sides differ, yet the Signed state is
stored and `sign_3` emits the partial signature anyway. -/
theorem sign_2_emits_despite_selfcheck_mismatch :
    ∃ out, State.sign_2 brokenCurve (State.sign_1 brokenCurve brokenKey toyBlinds) 9
        [brokenKey.public_key] [] 0 = some out ∧
      out.left_arg ≠ out.right_arg ∧
      out.st.State1.isSome = true ∧
      State.sign_3 brokenCurve out.st [] =
        Option.map (fun s1 => s1.s_i) out.st.State1 := by
  refine ⟨_, rfl, by decide, rfl, rfl⟩
